import Mathlib

/-!
Shallow embedding of the bitmap library in `bit.c`.

Machine words are `unsigned long` (width `W = 64`); `size_t` is also 64 bits
wide, so all machine arithmetic is taken modulo `M = 2 ^ 64` where overflow
can occur.  A bitmap is modelled as a `List Nat` of word values (each value
`< M`); out-of-range reads use default `0`, all claims are stated under the
precondition that the storage holds `BITS_TO_LONGS bits` words.
-/

namespace Bitops

/-- Width of an `unsigned long` in bits (`BITS_PER_LONG` in `bit.c`). -/
def W : Nat := 64

/-- Modulus of 64-bit machine arithmetic (`size_t` / `unsigned long` wrap). -/
def M : Nat := 2 ^ 64

theorem M_val : M = 18446744073709551616 := by norm_num [M]

theorem M_pos : 0 < M := by rw [M_val]; omega

theorem W_pos : 0 < W := by decide

/-- Embedding of the macro `BITOPS_DIV_CEIL(numerator, denominator)`,
`((numerator) + (denominator) - 1) / (denominator)` in `size_t` arithmetic:
the addition and the subtraction wrap modulo `2 ^ 64`. -/
def BITOPS_DIV_CEIL (numerator denominator : Nat) : Nat :=
  ((numerator + denominator - 1) % M) / denominator

/-- Embedding of `BITS_TO_LONGS(bits)`. -/
def BITS_TO_LONGS (bits : Nat) : Nat := BITOPS_DIV_CEIL bits W

/-- Embedding of `bitops_ffs` / `__builtin_ffsl`: one-based index of the least
significant set bit, `0` when the argument is zero. -/
def bitops_ffs (x : Nat) : Nat :=
  if h : x = 0 then 0
  else if x % 2 = 1 then 1
  else bitops_ffs (x / 2) + 1
termination_by x
decreasing_by exact Nat.div_lt_self (Nat.pos_of_ne_zero h) (by decide)

/-- Embedding of `test_bit(bit, bitmap)`. -/
def test_bit (bit : Nat) (bitmap : List Nat) : Bool :=
  bitmap.getD (bit / W) 0 &&& (1 <<< (bit % W)) != 0

/-- Embedding of `BITMAP_FIRST_WORD_MASK(start)`,
`~0UL << ((start) % BITS_PER_LONG)` (the shift result truncated to 64 bits). -/
def BITMAP_FIRST_WORD_MASK (start : Nat) : Nat :=
  ((M - 1) <<< (start % W)) % M

/-- Embedding of `BITMAP_LAST_WORD_MASK(bits)`,
`~0UL >> (-(bits) % BITS_PER_LONG)` where `-(bits)` is unsigned negation. -/
def BITMAP_LAST_WORD_MASK (bits : Nat) : Nat :=
  (M - 1) >>> ((M - bits % M) % M % W)

/-- Embedding of the word loop of `find_next_zero_bit`: starting from word
index `i` with accumulator `t` and word base `long_lower`, advance while
`t` is zero and `i < l`, loading `bitmap[i] ^ ~0UL` each round; returns the
final `(long_lower, t)` pair. -/
def scanZero (bitmap : List Nat) (l i long_lower t : Nat) : Nat × Nat :=
  if h : t = 0 ∧ i < l then
    scanZero bitmap l (i + 1) (long_lower + W) (bitmap.getD i 0 ^^^ (M - 1))
  else (long_lower, t)
termination_by l - i
decreasing_by omega

/-- Embedding of `find_next_zero_bit(bitmap, bits, start)`.  The first word is
loaded as `bitmap[first_long] | ~BITMAP_FIRST_WORD_MASK(start)` and then
complemented (`t ^= ~0UL`); `~x` on a 64-bit value `x` is `(M - 1) ^^^ x`. -/
def find_next_zero_bit (bitmap : List Nat) (bits start : Nat) : Nat :=
  let l := BITS_TO_LONGS bits
  let first_long := start / W
  let long_lower := start - start % W
  if start ≥ bits then bits
  else
    let t := (bitmap.getD first_long 0 ||| ((M - 1) ^^^ BITMAP_FIRST_WORD_MASK start))
               ^^^ (M - 1)
    let p := scanZero bitmap l (first_long + 1) long_lower t
    if p.2 = 0 then bits
    else
      let pos := p.1 + bitops_ffs p.2 - 1
      if pos ≥ bits then bits else pos

/-- Embedding of the brute-force reference scanner `find_next`. -/
def find_next (bitmap : List Nat) (bits start : Nat) : Nat :=
  if h : start < bits then
    if test_bit start bitmap then start else find_next bitmap bits (start + 1)
  else bits
termination_by bits - start
decreasing_by omega

/-- Embedding of the word loop of `find_next_bit`: like `scanZero` but each
round loads `bitmap[i]` without complementing. -/
def scanSet (bitmap : List Nat) (l i long_lower t : Nat) : Nat × Nat :=
  if h : t = 0 ∧ i < l then
    scanSet bitmap l (i + 1) (long_lower + W) (bitmap.getD i 0)
  else (long_lower, t)
termination_by l - i
decreasing_by omega

/-- Embedding of `find_next_bit(bitmap, bits, start)`. -/
def find_next_bit (bitmap : List Nat) (bits start : Nat) : Nat :=
  let l := BITS_TO_LONGS bits
  let first_long := start / W
  let long_lower := start - start % W
  if start ≥ bits then bits
  else
    let t := bitmap.getD first_long 0 &&& BITMAP_FIRST_WORD_MASK start
    let p := scanSet bitmap l (first_long + 1) long_lower t
    if p.2 = 0 then bits
    else
      let pos := p.1 + bitops_ffs p.2 - 1
      if pos ≥ bits then bits else pos

/-- Helper for `bitmap_fill`: word `k` of the result (where `k = i + position
in the remaining list`) is `0xff...ff` for `k < l - 1` (the `memset`), the
last-word mask for `k = l - 1`, and is left unchanged for `k ≥ l`, with
`l = BITS_TO_LONGS bits`. -/
def fillWords (bits i : Nat) : List Nat → List Nat
  | [] => []
  | w :: ws =>
    (if i + 1 < BITS_TO_LONGS bits then M - 1
     else if i + 1 = BITS_TO_LONGS bits then BITMAP_LAST_WORD_MASK bits
     else w) :: fillWords bits (i + 1) ws

/-- Embedding of `bitmap_fill(bitmap, bits)`: `memset(bitmap, 0xff, (l - 1) *
sizeof(unsigned long))` followed by `bitmap[l - 1] =
BITMAP_LAST_WORD_MASK(bits)`. -/
def bitmap_fill (bitmap : List Nat) (bits : Nat) : List Nat :=
  fillWords bits 0 bitmap

/-- Helper for `bitmap_zero`: words at index `< BITS_TO_LONGS bits` become
`0`, later words are left unchanged. -/
def zeroWords (bits i : Nat) : List Nat → List Nat
  | [] => []
  | w :: ws =>
    (if i < BITS_TO_LONGS bits then 0 else w) :: zeroWords bits (i + 1) ws

/-- Embedding of `bitmap_zero(bitmap, bits)`: `memset(bitmap, 0, BITS_TO_LONGS
(bits) * sizeof(unsigned long))`. -/
def bitmap_zero (bitmap : List Nat) (bits : Nat) : List Nat :=
  zeroWords bits 0 bitmap

/-- Specification predicate: `r` is the result of a correct forward scan for
predicate `p` over indices `[s, bits)` — either `bits` with no match in
range, or the smallest matching index that is `≥ s` and `< bits`. -/
def IsNextMatch (p : Nat → Bool) (bits s r : Nat) : Prop :=
  (r = bits ∧ ∀ i, s ≤ i → i < bits → p i = false) ∨
  (s ≤ r ∧ r < bits ∧ p r = true ∧ ∀ i, s ≤ i → i < r → p i = false)

/-! Arithmetic and bit-level helper lemmas. -/

theorem getD_lt_M {B : List Nat} (hw : ∀ w ∈ B, w < M) (i : Nat) :
    B.getD i 0 < M := by
  by_cases h : i < B.length
  · refine hw _ ?_
    rw [List.getD_eq_getElem?_getD, List.getElem?_eq_getElem h]
    exact List.getElem_mem h
  · rw [List.getD_eq_getElem?_getD, List.getElem?_eq_none (by omega)]
    exact M_pos

theorem BTL_eq {bits : Nat} (h0 : 0 < bits) (hov : bits + W ≤ M) :
    BITS_TO_LONGS bits = (bits - 1) / W + 1 := by
  have hW : W = 64 := rfl
  have hM := M_val
  unfold BITS_TO_LONGS BITOPS_DIV_CEIL
  rw [Nat.mod_eq_of_lt (by omega)]
  have h1 : bits + W - 1 = (bits - 1) + W := by omega
  rw [h1, Nat.add_div_right _ W_pos]

theorem BTL_mul_ge {bits : Nat} (h0 : 0 < bits) (hov : bits + W ≤ M) :
    bits ≤ BITS_TO_LONGS bits * W := by
  rw [BTL_eq h0 hov]
  simp only [W]
  omega

theorem BTL_pred_mul_lt {bits : Nat} (h0 : 0 < bits) (hov : bits + W ≤ M) :
    (BITS_TO_LONGS bits - 1) * W < bits := by
  rw [BTL_eq h0 hov]
  simp only [W]
  omega

theorem div_lt_BTL {bits i : Nat} (h0 : 0 < bits) (hov : bits + W ≤ M)
    (hi : i < bits) : i / W < BITS_TO_LONGS bits := by
  rw [BTL_eq h0 hov]
  have : i / W ≤ (bits - 1) / W := Nat.div_le_div_right (by omega)
  omega

theorem long_lower_eq (s : Nat) : s - s % W = s / W * W := by
  simp only [W]
  omega

theorem idx_div {q b : Nat} (hb : b < W) : (q * W + b) / W = q := by
  rw [Nat.mul_comm q W, Nat.mul_add_div W_pos, Nat.div_eq_of_lt hb, Nat.add_zero]

theorem idx_mod {q b : Nat} (hb : b < W) : (q * W + b) % W = b := by
  rw [Nat.mul_comm q W, Nat.mul_add_mod, Nat.mod_eq_of_lt hb]

theorem testBit_of_lt_M {x j : Nat} (hx : x < M) (hj : W ≤ j) :
    x.testBit j = false := by
  refine Nat.testBit_lt_two_pow (lt_of_lt_of_le hx ?_)
  rw [M]
  exact Nat.pow_le_pow_right (by omega) (by simpa [W] using hj)

theorem test_bit_testBit (i : Nat) (B : List Nat) :
    test_bit i B = (B.getD (i / W) 0).testBit (i % W) := by
  unfold test_bit
  generalize B.getD (i / W) 0 = w
  rw [Nat.shiftLeft_eq, one_mul]
  rcases h : w.testBit (i % W) with _ | _
  · have hz : w &&& 2 ^ (i % W) = 0 := by
      apply Nat.eq_of_testBit_eq
      intro k
      rw [Nat.testBit_and, Nat.zero_testBit, Nat.testBit_two_pow]
      rcases eq_or_ne (i % W) k with rfl | hk
      · rw [h]; simp
      · simp [hk]
    simp [hz]
  · have hnz : w &&& 2 ^ (i % W) ≠ 0 := by
      intro h0
      have := congrArg (fun x => Nat.testBit x (i % W)) h0
      simp [Nat.testBit_and, h, Nat.testBit_two_pow] at this
    simp [hnz]

theorem FWM_testBit (s j : Nat) :
    (BITMAP_FIRST_WORD_MASK s).testBit j
      = (decide (s % W ≤ j) && decide (j < W)) := by
  unfold BITMAP_FIRST_WORD_MASK
  simp only [M, W]
  rw [Nat.testBit_mod_two_pow, Nat.testBit_shiftLeft, Nat.testBit_two_pow_sub_one]
  by_cases h1 : s % 64 ≤ j <;> by_cases h2 : j < 64 <;>
    simp [h1, h2] <;> omega

theorem FWM_lt (s : Nat) : BITMAP_FIRST_WORD_MASK s < M :=
  Nat.mod_lt _ M_pos

theorem bitops_ffs_spec : ∀ x : Nat, x ≠ 0 →
    1 ≤ bitops_ffs x ∧ x.testBit (bitops_ffs x - 1) = true ∧
      ∀ j, j < bitops_ffs x - 1 → x.testBit j = false := by
  intro x
  induction x using Nat.strongRecOn with
  | ind x ih =>
    intro hx
    rw [bitops_ffs, dif_neg hx]
    by_cases h2 : x % 2 = 1
    · rw [if_pos h2]
      refine ⟨le_refl 1, by simp [Nat.testBit_zero, h2], fun j hj => by omega⟩
    · rw [if_neg h2]
      have hx2 : x / 2 ≠ 0 := by omega
      obtain ⟨h1, hbit, hmin⟩ :=
        ih (x / 2) (Nat.div_lt_self (Nat.pos_of_ne_zero hx) (by decide)) hx2
      refine ⟨by omega, ?_, ?_⟩
      · have he : bitops_ffs (x / 2) + 1 - 1 = (bitops_ffs (x / 2) - 1) + 1 := by
          omega
        rw [he, Nat.testBit_add_one]
        exact hbit
      · intro j hj
        match j with
        | 0 => simp [Nat.testBit_zero, h2]
        | k + 1 =>
          rw [Nat.testBit_add_one]
          exact hmin k (by omega)

theorem bitops_ffs_lt_W {x : Nat} (hx : x ≠ 0) (hltM : x < M) :
    bitops_ffs x - 1 < W := by
  by_contra hcon
  push_neg at hcon
  have hbit := (bitops_ffs_spec x hx).2.1
  rw [testBit_of_lt_M hltM hcon] at hbit
  cases hbit

/-! Unfolding and behavior of the scan loops. -/

theorem scanSet_eq (B : List Nat) (l i ll t : Nat) :
    scanSet B l i ll t =
      if t = 0 ∧ i < l then scanSet B l (i + 1) (ll + W) (B.getD i 0)
      else (ll, t) := by
  rw [scanSet, dite_eq_ite]

theorem scanZero_eq (B : List Nat) (l i ll t : Nat) :
    scanZero B l i ll t =
      if t = 0 ∧ i < l then
        scanZero B l (i + 1) (ll + W) (B.getD i 0 ^^^ (M - 1))
      else (ll, t) := by
  rw [scanZero, dite_eq_ite]

theorem scanSet_stop (B : List Nat) (l i ll t : Nat) (h : t ≠ 0 ∨ l ≤ i) :
    scanSet B l i ll t = (ll, t) := by
  rw [scanSet_eq, if_neg]
  rintro ⟨h1, h2⟩
  rcases h with h | h
  · exact h h1
  · omega

theorem scanZero_stop (B : List Nat) (l i ll t : Nat) (h : t ≠ 0 ∨ l ≤ i) :
    scanZero B l i ll t = (ll, t) := by
  rw [scanZero_eq, if_neg]
  rintro ⟨h1, h2⟩
  rcases h with h | h
  · exact h h1
  · omega

theorem scanSet_all_zero (B : List Nat) (l : Nat) :
    ∀ n i ll, l - i ≤ n → (∀ j, i ≤ j → j < l → B.getD j 0 = 0) →
      (scanSet B l i ll 0).2 = 0 := by
  intro n
  induction n with
  | zero =>
    intro i ll hn hz
    rw [scanSet_stop _ _ _ _ _ (Or.inr (by omega))]
  | succ n ih =>
    intro i ll hn hz
    by_cases hi : i < l
    · rw [scanSet_eq, if_pos ⟨rfl, hi⟩, hz i le_rfl hi]
      exact ih (i + 1) (ll + W) (by omega) fun j hj1 hj2 => hz j (by omega) hj2
    · rw [scanSet_stop _ _ _ _ _ (Or.inr (by omega))]

theorem scanZero_all_zero (B : List Nat) (l : Nat) :
    ∀ n i ll, l - i ≤ n → (∀ j, i ≤ j → j < l → B.getD j 0 ^^^ (M - 1) = 0) →
      (scanZero B l i ll 0).2 = 0 := by
  intro n
  induction n with
  | zero =>
    intro i ll hn hz
    rw [scanZero_stop _ _ _ _ _ (Or.inr (by omega))]
  | succ n ih =>
    intro i ll hn hz
    by_cases hi : i < l
    · rw [scanZero_eq, if_pos ⟨rfl, hi⟩, hz i le_rfl hi]
      exact ih (i + 1) (ll + W) (by omega) fun j hj1 hj2 => hz j (by omega) hj2
    · rw [scanZero_stop _ _ _ _ _ (Or.inr (by omega))]

theorem scanSet_find (B : List Nat) (l : Nat) :
    ∀ n i ll j, l - i ≤ n → i ≤ j → j < l → B.getD j 0 ≠ 0 →
      (∀ k, i ≤ k → k < j → B.getD k 0 = 0) →
      scanSet B l i ll 0 = (ll + (j + 1 - i) * W, B.getD j 0) := by
  intro n
  induction n with
  | zero => intro i ll j hn h1 h2 h3 h4; omega
  | succ n ih =>
    intro i ll j hn h1 h2 h3 h4
    have hi : i < l := by omega
    rw [scanSet_eq, if_pos ⟨rfl, hi⟩]
    rcases eq_or_ne i j with rfl | hij
    · rw [scanSet_stop _ _ _ _ _ (Or.inl h3)]
      have : i + 1 - i = 1 := by omega
      rw [this, one_mul]
    · rw [h4 i le_rfl (by omega)]
      rw [ih (i + 1) (ll + W) j (by omega) (by omega) h2 h3
        fun k hk1 hk2 => h4 k (by omega) hk2]
      have hW : W = 64 := rfl
      have : ll + W + (j + 1 - (i + 1)) * W = ll + (j + 1 - i) * W := by
        have h5 : j + 1 - (i + 1) = j - i := by omega
        have h6 : j + 1 - i = (j - i) + 1 := by omega
        rw [h5, h6, Nat.add_mul, one_mul]
        omega
      rw [this]

theorem scanZero_find (B : List Nat) (l : Nat) :
    ∀ n i ll j, l - i ≤ n → i ≤ j → j < l → B.getD j 0 ^^^ (M - 1) ≠ 0 →
      (∀ k, i ≤ k → k < j → B.getD k 0 ^^^ (M - 1) = 0) →
      scanZero B l i ll 0 = (ll + (j + 1 - i) * W, B.getD j 0 ^^^ (M - 1)) := by
  intro n
  induction n with
  | zero => intro i ll j hn h1 h2 h3 h4; omega
  | succ n ih =>
    intro i ll j hn h1 h2 h3 h4
    have hi : i < l := by omega
    rw [scanZero_eq, if_pos ⟨rfl, hi⟩]
    rcases eq_or_ne i j with rfl | hij
    · rw [scanZero_stop _ _ _ _ _ (Or.inl h3)]
      have : i + 1 - i = 1 := by omega
      rw [this, one_mul]
    · rw [h4 i le_rfl (by omega)]
      rw [ih (i + 1) (ll + W) j (by omega) (by omega) h2 h3
        fun k hk1 hk2 => h4 k (by omega) hk2]
      have hW : W = 64 := rfl
      have : ll + W + (j + 1 - (i + 1)) * W = ll + (j + 1 - i) * W := by
        have h5 : j + 1 - (i + 1) = j - i := by omega
        have h6 : j + 1 - i = (j - i) + 1 := by omega
        rw [h5, h6, Nat.add_mul, one_mul]
        omega
      rw [this]

/-! Generic facts about the scan specification predicate. -/

theorem isNextMatch_none (p : Nat → Bool) (bits s : Nat)
    (h : ∀ i, s ≤ i → i < bits → p i = false) : IsNextMatch p bits s bits :=
  Or.inl ⟨rfl, h⟩

theorem isNextMatch_resolve (p : Nat → Bool) (bits s pos : Nat)
    (h1 : s ≤ pos) (h2 : p pos = true)
    (h3 : ∀ i, s ≤ i → i < pos → p i = false) :
    IsNextMatch p bits s (if pos ≥ bits then bits else pos) := by
  by_cases h : pos ≥ bits
  · rw [if_pos h]
    exact Or.inl ⟨rfl, fun i hi hib => h3 i hi (by omega)⟩
  · rw [if_neg h]
    exact Or.inr ⟨h1, by omega, h2, h3⟩

theorem div_eq_of_between {i q : Nat} (h1 : q * W ≤ i) (h2 : i < q * W + W) :
    i / W = q := by
  simp only [W] at *
  omega

theorem mod_ge_of_div_eq {i s : Nat} (h : i / W = s / W) (hi : s ≤ i) :
    s % W ≤ i % W := by
  simp only [W] at *
  omega

theorem compl_testBit {x : Nat} (hx : x < M) (j : Nat) :
    (x ^^^ (M - 1)).testBit j = (!(x.testBit j) && decide (j < W)) := by
  rw [Nat.testBit_xor]
  by_cases h : j < 64
  · have hm : (M - 1).testBit j = true := by
      simp only [M]
      rw [Nat.testBit_two_pow_sub_one]
      simpa using h
    have hw : (decide (j < W)) = true := by simpa [W] using h
    rw [hm, hw]
    cases x.testBit j <;> rfl
  · have hm : (M - 1).testBit j = false := by
      simp only [M]
      rw [Nat.testBit_two_pow_sub_one]
      simpa using h
    have hw : (decide (j < W)) = false := by simpa [W] using h
    rw [hm, hw, testBit_of_lt_M hx (by simp only [W]; omega)]
    rfl

/-! Behavior of the bulk initializers, word by word. -/

theorem getD_len_le {L : List Nat} {k : Nat} (h : L.length ≤ k) :
    L.getD k 0 = 0 := by
  rw [List.getD_eq_getElem?_getD, List.getElem?_eq_none h]
  rfl

theorem fillWords_length (bits : Nat) :
    ∀ (L : List Nat) (i : Nat), (fillWords bits i L).length = L.length := by
  intro L
  induction L with
  | nil => intro i; rfl
  | cons w ws ih => intro i; simp [fillWords, ih]

theorem zeroWords_length (bits : Nat) :
    ∀ (L : List Nat) (i : Nat), (zeroWords bits i L).length = L.length := by
  intro L
  induction L with
  | nil => intro i; rfl
  | cons w ws ih => intro i; simp [zeroWords, ih]

theorem fillWords_getD (bits : Nat) :
    ∀ (L : List Nat) (i k : Nat), k < L.length →
      (fillWords bits i L).getD k 0 =
        if i + k + 1 < BITS_TO_LONGS bits then M - 1
        else if i + k + 1 = BITS_TO_LONGS bits then BITMAP_LAST_WORD_MASK bits
        else L.getD k 0 := by
  intro L
  induction L with
  | nil => intro i k hk; simp at hk
  | cons w ws ih =>
    intro i k hk
    match k with
    | 0 => simp [fillWords]
    | k + 1 =>
      simp only [fillWords, List.getD_cons_succ]
      rw [ih (i + 1) k (by simpa using hk)]
      have h1 : i + 1 + k = i + (k + 1) := by omega
      rw [h1]

theorem zeroWords_getD (bits : Nat) :
    ∀ (L : List Nat) (i k : Nat), k < L.length →
      (zeroWords bits i L).getD k 0 =
        if i + k < BITS_TO_LONGS bits then 0 else L.getD k 0 := by
  intro L
  induction L with
  | nil => intro i k hk; simp at hk
  | cons w ws ih =>
    intro i k hk
    match k with
    | 0 => simp [zeroWords]
    | k + 1 =>
      simp only [zeroWords, List.getD_cons_succ]
      rw [ih (i + 1) k (by simpa using hk)]
      have h1 : i + 1 + k = i + (k + 1) := by omega
      rw [h1]

/-! Closed form of the last-word mask. -/

theorem two_pow_sub_one_div {n k : Nat} (h : k ≤ n) :
    (2 ^ n - 1) / 2 ^ k = 2 ^ (n - k) - 1 := by
  have h2 : 0 < 2 ^ k := Nat.pos_pow_of_pos _ (by omega)
  have hsplit : 2 ^ n - 1 = (2 ^ k - 1) + (2 ^ (n - k) - 1) * 2 ^ k := by
    have h1 : 2 ^ (n - k) * 2 ^ k = 2 ^ n := by
      rw [← Nat.pow_add]
      congr 1
      omega
    have h4 : (2 ^ (n - k) - 1) * 2 ^ k = 2 ^ (n - k) * 2 ^ k - 1 * 2 ^ k :=
      Nat.sub_mul _ _ _
    have h5 : 2 ^ k ≤ 2 ^ n := Nat.pow_le_pow_right (by omega) h
    rw [h4, one_mul, h1]
    omega
  rw [hsplit, Nat.add_mul_div_right _ _ h2,
    Nat.div_eq_of_lt (show 2 ^ k - 1 < 2 ^ k by omega), Nat.zero_add]

theorem LWM_eq {bits : Nat} (h0 : 0 < bits) (hM : bits < M) :
    BITMAP_LAST_WORD_MASK bits
      = if bits % W = 0 then 2 ^ W - 1 else 2 ^ (bits % W) - 1 := by
  unfold BITMAP_LAST_WORD_MASK
  rw [Nat.mod_eq_of_lt hM, Nat.shiftRight_eq_div_pow]
  have hMv := M_val
  have hshift : (M - bits) % M % W = (W - bits % W) % W := by
    rw [Nat.mod_eq_of_lt (show M - bits < M by omega)]
    simp only [W] at *
    omega
  rw [hshift]
  by_cases hr : bits % W = 0
  · rw [if_pos hr, hr]
    norm_num [W, M]
  · rw [if_neg hr]
    have hrW : bits % W < W := Nat.mod_lt _ W_pos
    have h1 : (W - bits % W) % W = W - bits % W :=
      Nat.mod_eq_of_lt (by omega)
    rw [h1]
    simp only [M, W] at *
    rw [two_pow_sub_one_div (by omega)]
    have h2 : 64 - (64 - bits % 64) = bits % 64 := by omega
    rw [h2]

/-! Correctness of `find_next_bit` against a bit-by-bit scan. -/

theorem find_next_bit_spec (B : List Nat) (bits s : Nat)
    (hw : ∀ w ∈ B, w < M) (hov : bits + W ≤ M) :
    IsNextMatch (fun i => test_bit i B) bits s (find_next_bit B bits s) := by
  by_cases hsb : s ≥ bits
  · simp only [find_next_bit, if_pos hsb]
    exact isNextMatch_none _ _ _ fun i hi hib => by omega
  push_neg at hsb
  have h0 : 0 < bits := by omega
  have hfl_lt : s / W < BITS_TO_LONGS bits := div_lt_BTL h0 hov hsb
  have hw0 : B.getD (s / W) 0 < M := getD_lt_M hw _
  have ht0M : B.getD (s / W) 0 &&& BITMAP_FIRST_WORD_MASK s < M :=
    Nat.and_lt_two_pow _ (show BITMAP_FIRST_WORD_MASK s < 2 ^ 64 from FWM_lt s)
  have ht0bit : ∀ j, (B.getD (s / W) 0 &&& BITMAP_FIRST_WORD_MASK s).testBit j
      = ((B.getD (s / W) 0).testBit j
          && (decide (s % W ≤ j) && decide (j < W))) := fun j => by
    rw [Nat.testBit_and, FWM_testBit]
  have hcontent : ∀ i, s ≤ i → i / W = s / W →
      test_bit i B
        = (B.getD (s / W) 0 &&& BITMAP_FIRST_WORD_MASK s).testBit (i % W) := by
    intro i hi hq
    rw [test_bit_testBit, hq, ht0bit]
    have h1 : s % W ≤ i % W := mod_ge_of_div_eq hq hi
    have h2 : i % W < W := Nat.mod_lt _ W_pos
    simp [h1, h2]
  simp only [find_next_bit, if_neg (show ¬ s ≥ bits by omega)]
  by_cases ht0 : B.getD (s / W) 0 &&& BITMAP_FIRST_WORD_MASK s = 0
  · -- the masked first word has no candidate bit
    rw [ht0]
    have hword0 : ∀ i, s ≤ i → i / W = s / W → test_bit i B = false := by
      intro i hi hq
      rw [hcontent i hi hq, ht0, Nat.zero_testBit]
    by_cases hall : ∀ j, s / W + 1 ≤ j → j < BITS_TO_LONGS bits →
        B.getD j 0 = 0
    · -- every later word is zero: the scan finds nothing
      have hscan := scanSet_all_zero B (BITS_TO_LONGS bits)
        (BITS_TO_LONGS bits) (s / W + 1) (s - s % W) (Nat.sub_le _ _) hall
      rw [if_pos hscan]
      refine isNextMatch_none _ _ _ fun i hi hib => ?_
      have hqlt : i / W < BITS_TO_LONGS bits := div_lt_BTL h0 hov hib
      have hqge : s / W ≤ i / W := Nat.div_le_div_right hi
      rcases eq_or_lt_of_le hqge with hq | hq
      · exact hword0 i hi hq.symm
      · rw [test_bit_testBit, hall (i / W) (by omega) hqlt, Nat.zero_testBit]
    · -- there is a later nonzero word; take the first one
      push_neg at hall
      obtain ⟨j1, hj1a, hj1b, hj1c⟩ := hall
      have hex : ∃ j, s / W + 1 ≤ j ∧ j < BITS_TO_LONGS bits ∧
          B.getD j 0 ≠ 0 := ⟨j1, hj1a, hj1b, hj1c⟩
      have hPj := Nat.find_spec hex
      have hzero_mid : ∀ k, s / W + 1 ≤ k → k < Nat.find hex →
          B.getD k 0 = 0 := by
        intro k h1 h2
        by_contra hne
        exact Nat.find_min hex h2 ⟨h1, by omega, hne⟩
      have hscan := scanSet_find B (BITS_TO_LONGS bits) (BITS_TO_LONGS bits)
        (s / W + 1) (s - s % W) (Nat.find hex) (Nat.sub_le _ _) hPj.1 hPj.2.1
        hPj.2.2 hzero_mid
      rw [hscan]
      dsimp only
      rw [if_neg hPj.2.2]
      have harith : s - s % W + (Nat.find hex + 1 - (s / W + 1)) * W
          = Nat.find hex * W := by
        have h1 := hPj.1
        simp only [W] at h1 ⊢
        omega
      rw [harith]
      have hwj : B.getD (Nat.find hex) 0 < M := getD_lt_M hw _
      obtain ⟨hffs1, hffsbit, hffsmin⟩ := bitops_ffs_spec _ hPj.2.2
      have hbW : bitops_ffs (B.getD (Nat.find hex) 0) - 1 < W :=
        bitops_ffs_lt_W hPj.2.2 hwj
      have hpos : Nat.find hex * W + bitops_ffs (B.getD (Nat.find hex) 0) - 1
          = Nat.find hex * W + (bitops_ffs (B.getD (Nat.find hex) 0) - 1) := by
        omega
      rw [hpos]
      refine isNextMatch_resolve _ _ _ _ ?_ ?_ ?_
      · -- the found position is at or after the start
        have h1 := hPj.1
        simp only [W] at h1 ⊢
        omega
      · rw [test_bit_testBit, idx_div hbW, idx_mod hbW]
        exact hffsbit
      · intro i hi hilt
        have hqle : i / W ≤ Nat.find hex := by
          have := hbW
          simp only [W] at this hilt ⊢
          omega
        have hqge : s / W ≤ i / W := Nat.div_le_div_right hi
        rcases eq_or_lt_of_le hqge with hq | hq
        · exact hword0 i hi hq.symm
        rcases eq_or_lt_of_le hqle with hq2 | hq2
        · -- inside the found word, strictly below the found bit
          rw [test_bit_testBit, hq2]
          refine hffsmin _ ?_
          have := hbW
          simp only [W] at this hilt hq2 ⊢
          omega
        · rw [test_bit_testBit, hzero_mid (i / W) (by omega) hq2,
            Nat.zero_testBit]
  · -- the masked first word already has a candidate bit
    rw [scanSet_stop _ _ _ _ _ (Or.inl ht0)]
    dsimp only
    rw [if_neg ht0]
    obtain ⟨hffs1, hffsbit, hffsmin⟩ := bitops_ffs_spec _ ht0
    have hbW : bitops_ffs (B.getD (s / W) 0 &&& BITMAP_FIRST_WORD_MASK s) - 1
        < W := bitops_ffs_lt_W ht0 ht0M
    have hbits : ∀ j, (B.getD (s / W) 0 &&& BITMAP_FIRST_WORD_MASK s).testBit j
        = true → (B.getD (s / W) 0).testBit j = true ∧ s % W ≤ j ∧ j < W := by
      intro j hj
      rw [ht0bit] at hj
      simp only [Bool.and_eq_true, decide_eq_true_eq] at hj
      exact ⟨hj.1, hj.2.1, hj.2.2⟩
    have hrb : s % W ≤
        bitops_ffs (B.getD (s / W) 0 &&& BITMAP_FIRST_WORD_MASK s) - 1 :=
      (hbits _ hffsbit).2.1
    have hpos : s - s % W
          + bitops_ffs (B.getD (s / W) 0 &&& BITMAP_FIRST_WORD_MASK s) - 1
        = s / W * W
          + (bitops_ffs (B.getD (s / W) 0 &&& BITMAP_FIRST_WORD_MASK s) - 1) := by
      rw [long_lower_eq]
      omega
    rw [hpos]
    refine isNextMatch_resolve _ _ _ _ ?_ ?_ ?_
    · simp only [W] at hrb ⊢
      omega
    · rw [test_bit_testBit, idx_div hbW, idx_mod hbW]
      exact (hbits _ hffsbit).1
    · intro i hi hilt
      have hq : i / W = s / W := by
        refine div_eq_of_between ?_ ?_
        · have h1 := Nat.div_add_mod s W
          have h2 : s % W < W := Nat.mod_lt _ W_pos
          simp only [W] at *
          omega
        · have := hbW
          simp only [W] at *
          omega
      rw [hcontent i hi hq]
      refine hffsmin _ ?_
      have := hbW
      simp only [W] at this hilt ⊢
      omega

/-! Correctness of `find_next_zero_bit` against a bit-by-bit scan. -/

theorem find_next_zero_bit_spec (B : List Nat) (bits s : Nat)
    (hw : ∀ w ∈ B, w < M) (hov : bits + W ≤ M) :
    IsNextMatch (fun i => !(test_bit i B)) bits s
      (find_next_zero_bit B bits s) := by
  by_cases hsb : s ≥ bits
  · simp only [find_next_zero_bit, if_pos hsb]
    exact isNextMatch_none _ _ _ fun i hi hib => by omega
  push_neg at hsb
  have h0 : 0 < bits := by omega
  have hM1 : M - 1 < M := by have := M_val; omega
  have hfl_lt : s / W < BITS_TO_LONGS bits := div_lt_BTL h0 hov hsb
  have hw0 : B.getD (s / W) 0 < M := getD_lt_M hw _
  have hA : B.getD (s / W) 0 ||| ((M - 1) ^^^ BITMAP_FIRST_WORD_MASK s) < M :=
    Nat.or_lt_two_pow (show _ < 2 ^ 64 from hw0)
      (show _ < 2 ^ 64 from Nat.xor_lt_two_pow hM1 (FWM_lt s))
  have ht0M : (B.getD (s / W) 0 ||| ((M - 1) ^^^ BITMAP_FIRST_WORD_MASK s))
      ^^^ (M - 1) < M :=
    Nat.xor_lt_two_pow (show _ < 2 ^ 64 from hA) (show _ < 2 ^ 64 from hM1)
  have ht0bit : ∀ j,
      ((B.getD (s / W) 0 ||| ((M - 1) ^^^ BITMAP_FIRST_WORD_MASK s))
        ^^^ (M - 1)).testBit j
      = (!((B.getD (s / W) 0).testBit j)
          && (decide (s % W ≤ j) && decide (j < W))) := by
    intro j
    rw [compl_testBit hA, Nat.testBit_or, Nat.xor_comm (M - 1),
      compl_testBit (FWM_lt s), FWM_testBit]
    by_cases h1 : s % W ≤ j <;> by_cases h2 : j < W <;>
      cases h3 : (B.getD (s / W) 0).testBit j <;> simp [h1, h2, h3]
  have hbits : ∀ j,
      ((B.getD (s / W) 0 ||| ((M - 1) ^^^ BITMAP_FIRST_WORD_MASK s))
        ^^^ (M - 1)).testBit j = true →
      (B.getD (s / W) 0).testBit j = false ∧ s % W ≤ j ∧ j < W := by
    intro j hj
    rw [ht0bit] at hj
    simp only [Bool.and_eq_true, Bool.not_eq_true', decide_eq_true_eq] at hj
    exact ⟨hj.1, hj.2.1, hj.2.2⟩
  have hcontent : ∀ i, s ≤ i → i / W = s / W →
      (!(test_bit i B))
        = ((B.getD (s / W) 0 ||| ((M - 1) ^^^ BITMAP_FIRST_WORD_MASK s))
            ^^^ (M - 1)).testBit (i % W) := by
    intro i hi hq
    rw [test_bit_testBit, hq, ht0bit]
    have h1 : s % W ≤ i % W := mod_ge_of_div_eq hq hi
    have h2 : i % W < W := Nat.mod_lt _ W_pos
    simp [h1, h2]
  have hfull : ∀ (x : Nat), x ^^^ (M - 1) = 0 → ∀ j, j < W →
      x.testBit j = true := by
    intro x hx j hj
    have hxe : x = M - 1 := by
      have := Nat.xor_eq_zero.mp hx
      omega
    rw [hxe]
    simp only [M]
    rw [Nat.testBit_two_pow_sub_one]
    simpa [W] using hj
  simp only [find_next_zero_bit, if_neg (show ¬ s ≥ bits by omega)]
  by_cases ht0 : (B.getD (s / W) 0 ||| ((M - 1) ^^^ BITMAP_FIRST_WORD_MASK s))
      ^^^ (M - 1) = 0
  · -- the masked and inverted first word has no candidate bit
    rw [ht0]
    have hword0 : ∀ i, s ≤ i → i / W = s / W → (!(test_bit i B)) = false := by
      intro i hi hq
      rw [hcontent i hi hq, ht0, Nat.zero_testBit]
    by_cases hall : ∀ j, s / W + 1 ≤ j → j < BITS_TO_LONGS bits →
        B.getD j 0 ^^^ (M - 1) = 0
    · -- every later word inverts to zero: the scan finds nothing
      have hscan := scanZero_all_zero B (BITS_TO_LONGS bits)
        (BITS_TO_LONGS bits) (s / W + 1) (s - s % W) (Nat.sub_le _ _) hall
      rw [if_pos hscan]
      refine isNextMatch_none _ _ _ fun i hi hib => ?_
      have hqlt : i / W < BITS_TO_LONGS bits := div_lt_BTL h0 hov hib
      have hqge : s / W ≤ i / W := Nat.div_le_div_right hi
      rcases eq_or_lt_of_le hqge with hq | hq
      · exact hword0 i hi hq.symm
      · rw [test_bit_testBit,
          hfull _ (hall (i / W) (by omega) hqlt) _ (Nat.mod_lt _ W_pos)]
        rfl
    · -- there is a later word with a clear bit; take the first one
      push_neg at hall
      obtain ⟨j1, hj1a, hj1b, hj1c⟩ := hall
      have hex : ∃ j, s / W + 1 ≤ j ∧ j < BITS_TO_LONGS bits ∧
          B.getD j 0 ^^^ (M - 1) ≠ 0 := ⟨j1, hj1a, hj1b, hj1c⟩
      have hPj := Nat.find_spec hex
      have hzero_mid : ∀ k, s / W + 1 ≤ k → k < Nat.find hex →
          B.getD k 0 ^^^ (M - 1) = 0 := by
        intro k h1 h2
        by_contra hne
        exact Nat.find_min hex h2 ⟨h1, by omega, hne⟩
      have hscan := scanZero_find B (BITS_TO_LONGS bits) (BITS_TO_LONGS bits)
        (s / W + 1) (s - s % W) (Nat.find hex) (Nat.sub_le _ _) hPj.1 hPj.2.1
        hPj.2.2 hzero_mid
      rw [hscan]
      dsimp only
      rw [if_neg hPj.2.2]
      have harith : s - s % W + (Nat.find hex + 1 - (s / W + 1)) * W
          = Nat.find hex * W := by
        have h1 := hPj.1
        simp only [W] at h1 ⊢
        omega
      rw [harith]
      have hwj : B.getD (Nat.find hex) 0 < M := getD_lt_M hw _
      have htj : B.getD (Nat.find hex) 0 ^^^ (M - 1) < M :=
        Nat.xor_lt_two_pow (show _ < 2 ^ 64 from hwj)
          (show _ < 2 ^ 64 from hM1)
      obtain ⟨hffs1, hffsbit, hffsmin⟩ := bitops_ffs_spec _ hPj.2.2
      have hbW : bitops_ffs (B.getD (Nat.find hex) 0 ^^^ (M - 1)) - 1 < W :=
        bitops_ffs_lt_W hPj.2.2 htj
      have hpos : Nat.find hex * W
            + bitops_ffs (B.getD (Nat.find hex) 0 ^^^ (M - 1)) - 1
          = Nat.find hex * W
            + (bitops_ffs (B.getD (Nat.find hex) 0 ^^^ (M - 1)) - 1) := by
        omega
      rw [hpos]
      refine isNextMatch_resolve _ _ _ _ ?_ ?_ ?_
      · have h1 := hPj.1
        simp only [W] at h1 ⊢
        omega
      · rw [test_bit_testBit, idx_div hbW, idx_mod hbW]
        have hx := hffsbit
        rw [compl_testBit hwj] at hx
        simp only [Bool.and_eq_true, Bool.not_eq_true', decide_eq_true_eq]
          at hx
        rw [hx.1]
        rfl
      · intro i hi hilt
        have hqle : i / W ≤ Nat.find hex := by
          have := hbW
          simp only [W] at this hilt ⊢
          omega
        have hqge : s / W ≤ i / W := Nat.div_le_div_right hi
        rcases eq_or_lt_of_le hqge with hq | hq
        · exact hword0 i hi hq.symm
        rcases eq_or_lt_of_le hqle with hq2 | hq2
        · -- inside the found word, strictly below the found bit
          have hmini : (B.getD (Nat.find hex) 0 ^^^ (M - 1)).testBit (i % W)
              = false := by
            refine hffsmin _ ?_
            have := hbW
            simp only [W] at this hilt hq2 ⊢
            omega
          rw [compl_testBit hwj] at hmini
          simp only [Bool.and_eq_false_iff, Bool.not_eq_false',
            decide_eq_false_iff_not] at hmini
          rw [test_bit_testBit, hq2]
          rcases hmini with hmini | hmini
          · rw [hmini]
            rfl
          · exact absurd (Nat.mod_lt _ W_pos) hmini
        · rw [test_bit_testBit,
            hfull _ (hzero_mid (i / W) (by omega) hq2) _ (Nat.mod_lt _ W_pos)]
          rfl
  · -- the masked and inverted first word already has a candidate bit
    rw [scanZero_stop _ _ _ _ _ (Or.inl ht0)]
    dsimp only
    rw [if_neg ht0]
    obtain ⟨hffs1, hffsbit, hffsmin⟩ := bitops_ffs_spec _ ht0
    have hbW : bitops_ffs
        ((B.getD (s / W) 0 ||| ((M - 1) ^^^ BITMAP_FIRST_WORD_MASK s))
          ^^^ (M - 1)) - 1 < W := bitops_ffs_lt_W ht0 ht0M
    have hrb : s % W ≤ bitops_ffs
        ((B.getD (s / W) 0 ||| ((M - 1) ^^^ BITMAP_FIRST_WORD_MASK s))
          ^^^ (M - 1)) - 1 := (hbits _ hffsbit).2.1
    have hpos : s - s % W + bitops_ffs
          ((B.getD (s / W) 0 ||| ((M - 1) ^^^ BITMAP_FIRST_WORD_MASK s))
            ^^^ (M - 1)) - 1
        = s / W * W + (bitops_ffs
            ((B.getD (s / W) 0 ||| ((M - 1) ^^^ BITMAP_FIRST_WORD_MASK s))
              ^^^ (M - 1)) - 1) := by
      rw [long_lower_eq]
      omega
    rw [hpos]
    refine isNextMatch_resolve _ _ _ _ ?_ ?_ ?_
    · simp only [W] at hrb ⊢
      omega
    · rw [test_bit_testBit, idx_div hbW, idx_mod hbW, (hbits _ hffsbit).1]
      rfl
    · intro i hi hilt
      have hq : i / W = s / W := by
        refine div_eq_of_between ?_ ?_
        · have h1 := Nat.div_add_mod s W
          have h2 : s % W < W := Nat.mod_lt _ W_pos
          simp only [W] at *
          omega
        · have := hbW
          simp only [W] at *
          omega
      rw [hcontent i hi hq]
      refine hffsmin _ ?_
      have := hbW
      simp only [W] at this hilt ⊢
      omega

/-! Claim theorems. -/

/-- C1: for every bitmap `B` whose storage holds `BITS_TO_LONGS bits` words
(each a 64-bit value), every `bits` in `[1, M - W]` and every start position
`s`, `find_next_bit B bits s` is the smallest index `i` with `s ≤ i < bits`
and `test_bit i B` true, or `bits` if no such index exists. -/
theorem claim_C1 (B : List Nat) (bits s : Nat)
    (hw : ∀ w ∈ B, w < M) (hlen : B.length = BITS_TO_LONGS bits)
    (hb : 1 ≤ bits) (hov : bits + W ≤ M) :
    IsNextMatch (fun i => test_bit i B) bits s (find_next_bit B bits s) :=
  find_next_bit_spec B bits s hw hov

/-- C1 witness: the general theorem instantiated on the one-word bitmap
`[2]` with `bits = 3` and `s = 0`. -/
theorem claim_C1_witness :
    IsNextMatch (fun i => test_bit i [2]) 3 0 (find_next_bit [2] 3 0) :=
  claim_C1 [2] 3 0 (by decide) (by decide) (by decide) (by decide)

/-- C2: under the same preconditions as C1, `find_next_zero_bit B bits s` is
the smallest index `i` with `s ≤ i < bits` and `test_bit i B` false, or
`bits` if no such index exists; in particular (by the `s ≤ i` part of the
specification predicate) the inversion of the first word never surfaces
cleared bits before `s` as matches. -/
theorem claim_C2 (B : List Nat) (bits s : Nat)
    (hw : ∀ w ∈ B, w < M) (hlen : B.length = BITS_TO_LONGS bits)
    (hb : 1 ≤ bits) (hov : bits + W ≤ M) :
    IsNextMatch (fun i => !(test_bit i B)) bits s
      (find_next_zero_bit B bits s) :=
  find_next_zero_bit_spec B bits s hw hov

/-- C2 witness: the general theorem instantiated on the one-word bitmap
`[2]` with `bits = 3` and `s = 0`. -/
theorem claim_C2_witness :
    IsNextMatch (fun i => !(test_bit i [2])) 3 0
      (find_next_zero_bit [2] 3 0) :=
  claim_C2 [2] 3 0 (by decide) (by decide) (by decide) (by decide)

/-- C3: after `bitmap_fill B n` (for `n ≥ 1`, storage of `BITS_TO_LONGS n`
words), `test_bit i` is true for every content index `i < n`, and every
padding bit of the last storage word (storage positions `≥ n`) reads as 0. -/
theorem claim_C3 (B : List Nat) (n i : Nat) (hn : 1 ≤ n)
    (hlen : B.length = BITS_TO_LONGS n) (hov : n + W ≤ M) :
    (i < n → test_bit i (bitmap_fill B n) = true) ∧
    (n ≤ i → i < BITS_TO_LONGS n * W →
      test_bit i (bitmap_fill B n) = false) := by
  have h0 : 0 < n := hn
  have hMn : n < M := by
    have := M_val
    simp only [W] at hov
    omega
  have hmul := BTL_mul_ge h0 hov
  have hpred := BTL_pred_mul_lt h0 hov
  have hl1 : 1 ≤ BITS_TO_LONGS n := by
    rw [BTL_eq h0 hov]
    exact Nat.succ_le_succ (Nat.zero_le _)
  constructor
  · intro hi
    have hqlt : i / W < BITS_TO_LONGS n := div_lt_BTL h0 hov hi
    rw [test_bit_testBit, show bitmap_fill B n = fillWords n 0 B from rfl,
      fillWords_getD n B 0 (i / W) (by omega), Nat.zero_add]
    have hm : i % W < W := Nat.mod_lt i W_pos
    by_cases hc1 : i / W + 1 < BITS_TO_LONGS n
    · rw [if_pos hc1]
      simp only [M]
      rw [Nat.testBit_two_pow_sub_one]
      simp only [W, decide_eq_true_eq]
      omega
    · have hc2 : i / W + 1 = BITS_TO_LONGS n := by omega
      rw [if_neg hc1, if_pos hc2, LWM_eq h0 hMn]
      by_cases hr : n % W = 0
      · rw [if_pos hr]
        simp only [W]
        rw [Nat.testBit_two_pow_sub_one]
        simp only [decide_eq_true_eq]
        omega
      · rw [if_neg hr, Nat.testBit_two_pow_sub_one]
        simp only [decide_eq_true_eq]
        simp only [W] at hc2 hmul hpred hr ⊢
        omega
  · intro hni hil
    have hq : i / W = BITS_TO_LONGS n - 1 := by
      simp only [W] at hil hpred hmul ⊢
      omega
    rw [test_bit_testBit, show bitmap_fill B n = fillWords n 0 B from rfl,
      fillWords_getD n B 0 (i / W) (by omega), Nat.zero_add]
    have hc1 : ¬ (i / W + 1 < BITS_TO_LONGS n) := by omega
    have hc2 : i / W + 1 = BITS_TO_LONGS n := by omega
    rw [if_neg hc1, if_pos hc2, LWM_eq h0 hMn]
    by_cases hr : n % W = 0
    · exfalso
      simp only [W] at hil hpred hmul hr
      omega
    · rw [if_neg hr, Nat.testBit_two_pow_sub_one]
      simp only [decide_eq_false_iff_not]
      simp only [W] at hq hpred hmul hr ⊢
      omega

/-- C3 witness: the general theorem instantiated on the two-word bitmap
`[0, 0]` with `n = 65` and `i = 64`. -/
theorem claim_C3_witness :
    (64 < 65 → test_bit 64 (bitmap_fill [0, 0] 65) = true) ∧
    (65 ≤ 64 → 64 < BITS_TO_LONGS 65 * W →
      test_bit 64 (bitmap_fill [0, 0] 65) = false) :=
  claim_C3 [0, 0] 65 64 (by decide) (by decide) (by decide)

/-- C4: for every bitmap, every `bits` and every `start`, both scanners
return at most `bits`: a candidate position `≥ bits` (which can only come
from padding bits of the last word) is discarded and `bits` is returned. -/
theorem claim_C4 (B : List Nat) (bits start : Nat) :
    find_next_bit B bits start ≤ bits ∧
    find_next_zero_bit B bits start ≤ bits := by
  constructor
  · simp only [find_next_bit]
    split
    · exact le_refl bits
    split
    · exact le_refl bits
    split
    · exact le_refl bits
    · omega
  · simp only [find_next_zero_bit]
    split
    · exact le_refl bits
    split
    · exact le_refl bits
    split
    · exact le_refl bits
    · omega

/-- C5 counterexample: at `bits = 2^64 - 1` (representable in `size_t`),
`BITS_TO_LONGS` does not return the ceiling `(bits - 1) / W + 1`: the sum
`bits + W - 1` wraps modulo `2^64` and the macro returns `0`. -/
theorem claim_C5_counterexample :
    ¬ (BITS_TO_LONGS (M - 1) = (M - 1 - 1) / W + 1) := by decide

/-- C5 (amended): `BITS_TO_LONGS bits` returns the ceiling of `bits / W`
for every `bits ≥ 1` such that `bits + W - 1` does not overflow `size_t`
(that is, `bits + W ≤ 2^64`); near the size-type maximum the computation
overflows and the result is wrong. -/
theorem claim_C5 (bits : Nat) (h1 : 1 ≤ bits) (h2 : bits + W ≤ M) :
    BITS_TO_LONGS bits = (bits - 1) / W + 1 :=
  BTL_eq (by omega) h2

/-- C5 witness: the amended theorem instantiated at `bits = 400`. -/
theorem claim_C5_witness : BITS_TO_LONGS 400 = (400 - 1) / W + 1 :=
  claim_C5 400 (by decide) (by decide)

/-- C6: when `start ≥ bits`, both scanners return `bits` immediately; the
result does not depend on the bitmap contents at all. -/
theorem claim_C6 (B : List Nat) (bits start : Nat) (h : bits ≤ start) :
    find_next_bit B bits start = bits ∧
    find_next_zero_bit B bits start = bits := by
  constructor
  · simp only [find_next_bit]
    rw [if_pos (show start ≥ bits from h)]
  · simp only [find_next_zero_bit]
    rw [if_pos (show start ≥ bits from h)]

/-- C6 witness: both scanners on the bitmap `[5]` with `bits = 3` and
`start = 3` return `3`. -/
theorem claim_C6_witness :
    find_next_bit [5] 3 3 = 3 ∧ find_next_zero_bit [5] 3 3 = 3 :=
  claim_C6 [5] 3 3 (by decide)

/-- C7: `BITMAP_LAST_WORD_MASK bits` has exactly bits `[0, bits % W)` set
when `bits % W ≠ 0`, and is the full word `2^W - 1` when `bits` is an exact
multiple of `W`. -/
theorem claim_C7 (bits : Nat) (h0 : 0 < bits) (hM : bits < M) :
    (bits % W ≠ 0 → BITMAP_LAST_WORD_MASK bits = 2 ^ (bits % W) - 1) ∧
    (bits % W = 0 → BITMAP_LAST_WORD_MASK bits = 2 ^ W - 1) := by
  constructor
  · intro hr
    rw [LWM_eq h0 hM, if_neg hr]
  · intro hr
    rw [LWM_eq h0 hM, if_pos hr]

/-- C7 witness: the mask theorem instantiated at `bits = 65`. -/
theorem claim_C7_witness :
    (65 % W ≠ 0 → BITMAP_LAST_WORD_MASK 65 = 2 ^ (65 % W) - 1) ∧
    (65 % W = 0 → BITMAP_LAST_WORD_MASK 65 = 2 ^ W - 1) :=
  claim_C7 65 (by decide) (by decide)

/-- C8: after `bitmap_zero B n` (storage of `BITS_TO_LONGS n` words), every
storage word reads as `0` (padding included), and consequently
`find_next_bit` over the whole range finds nothing and returns `n`. -/
theorem claim_C8 (B : List Nat) (n i : Nat) (hn : 1 ≤ n)
    (hlen : B.length = BITS_TO_LONGS n) (hov : n + W ≤ M) :
    (bitmap_zero B n).getD i 0 = 0 ∧
    find_next_bit (bitmap_zero B n) n 0 = n := by
  have hlen2 : (bitmap_zero B n).length = B.length := zeroWords_length n B 0
  have hzero : ∀ k, (bitmap_zero B n).getD k 0 = 0 := by
    intro k
    by_cases hk : k < B.length
    · rw [show bitmap_zero B n = zeroWords n 0 B from rfl,
        zeroWords_getD n B 0 k hk, if_pos (by omega)]
    · exact getD_len_le (by omega)
  refine ⟨hzero i, ?_⟩
  have hw' : ∀ w ∈ bitmap_zero B n, w < M := by
    intro w hw
    obtain ⟨k, hk, hkeq⟩ := List.getElem_of_mem hw
    have h1 := hzero k
    rw [List.getD_eq_getElem?_getD, List.getElem?_eq_getElem hk] at h1
    simp only [Option.getD_some] at h1
    rw [← hkeq, h1]
    exact M_pos
  rcases find_next_bit_spec (bitmap_zero B n) n 0 hw' hov with
    ⟨heq, _⟩ | ⟨_, hlt, hbit, _⟩
  · exact heq
  · exfalso
    simp only [test_bit_testBit] at hbit
    rw [hzero, Nat.zero_testBit] at hbit
    cases hbit

/-- C8 witness: the general theorem instantiated on the bitmap `[7]` with
`n = 3` and word index `i = 0`. -/
theorem claim_C8_witness :
    (bitmap_zero [7] 3).getD 0 0 = 0 ∧
    find_next_bit (bitmap_zero [7] 3) 3 0 = 3 :=
  claim_C8 [7] 3 0 (by decide) (by decide) (by decide)

/-- C9: `bitmap_fill` and `bitmap_zero` write only the first
`BITS_TO_LONGS bits` storage words; any storage word at index
`≥ BITS_TO_LONGS bits` is left unchanged by both. -/
theorem claim_C9 (B : List Nat) (bits i : Nat)
    (hl : 1 ≤ BITS_TO_LONGS bits) (hi : BITS_TO_LONGS bits ≤ i) :
    (bitmap_fill B bits).getD i 0 = B.getD i 0 ∧
    (bitmap_zero B bits).getD i 0 = B.getD i 0 := by
  constructor
  · by_cases hk : i < B.length
    · rw [show bitmap_fill B bits = fillWords bits 0 B from rfl,
        fillWords_getD bits B 0 i hk, Nat.zero_add, if_neg (by omega),
        if_neg (by omega)]
    · have h1 : (bitmap_fill B bits).length = B.length :=
        fillWords_length bits B 0
      rw [getD_len_le (by omega), getD_len_le (by omega)]
  · by_cases hk : i < B.length
    · rw [show bitmap_zero B bits = zeroWords bits 0 B from rfl,
        zeroWords_getD bits B 0 i hk, Nat.zero_add, if_neg (by omega)]
    · have h1 : (bitmap_zero B bits).length = B.length :=
        zeroWords_length bits B 0
      rw [getD_len_le (by omega), getD_len_le (by omega)]

/-- C9 witness: the frame theorem instantiated on the bitmap `[1, 2]` with
`bits = 65` and word index `i = 2` (just past the two written words). -/
theorem claim_C9_witness :
    (bitmap_fill [1, 2] 65).getD 2 0 = [1, 2].getD 2 0 ∧
    (bitmap_zero [1, 2] 65).getD 2 0 = [1, 2].getD 2 0 :=
  claim_C9 [1, 2] 65 2 (by decide) (by decide)

/-- C10: rescanning from a found position is a fixed point: if the result
`r` of either scanner is `< bits`, scanning again from `r` returns `r`. -/
theorem claim_C10 (B : List Nat) (bits s : Nat)
    (hw : ∀ w ∈ B, w < M) (hlen : B.length = BITS_TO_LONGS bits)
    (hb : 1 ≤ bits) (hov : bits + W ≤ M) :
    (find_next_bit B bits s < bits →
      find_next_bit B bits (find_next_bit B bits s) = find_next_bit B bits s) ∧
    (find_next_zero_bit B bits s < bits →
      find_next_zero_bit B bits (find_next_zero_bit B bits s)
        = find_next_zero_bit B bits s) := by
  constructor
  · intro hr
    rcases find_next_bit_spec B bits s hw hov with ⟨heq, _⟩ | ⟨_, _, hbit, _⟩
    · omega
    · rcases find_next_bit_spec B bits (find_next_bit B bits s) hw hov with
        ⟨_, hnone⟩ | ⟨hle2, _, _, hmin2⟩
      · exact absurd hbit (by rw [hnone _ le_rfl hr]; exact Bool.false_ne_true)
      · rcases eq_or_lt_of_le hle2 with heq2 | hlt2
        · exact heq2.symm
        · exact absurd hbit
            (by rw [hmin2 _ le_rfl hlt2]; exact Bool.false_ne_true)
  · intro hr
    rcases find_next_zero_bit_spec B bits s hw hov with
      ⟨heq, _⟩ | ⟨_, _, hbit, _⟩
    · omega
    · rcases find_next_zero_bit_spec B bits (find_next_zero_bit B bits s)
        hw hov with ⟨_, hnone⟩ | ⟨hle2, _, _, hmin2⟩
      · exact absurd hbit (by rw [hnone _ le_rfl hr]; exact Bool.false_ne_true)
      · rcases eq_or_lt_of_le hle2 with heq2 | hlt2
        · exact heq2.symm
        · exact absurd hbit
            (by rw [hmin2 _ le_rfl hlt2]; exact Bool.false_ne_true)

/-- C10 witness: the fixed-point theorem instantiated on the bitmap `[2]`
with `bits = 3` and `s = 0`. -/
theorem claim_C10_witness :
    (find_next_bit [2] 3 0 < 3 →
      find_next_bit [2] 3 (find_next_bit [2] 3 0) = find_next_bit [2] 3 0) ∧
    (find_next_zero_bit [2] 3 0 < 3 →
      find_next_zero_bit [2] 3 (find_next_zero_bit [2] 3 0)
        = find_next_zero_bit [2] 3 0) :=
  claim_C10 [2] 3 0 (by decide) (by decide) (by decide) (by decide)

end Bitops
